import Mathlib

/-!
Verification of the RAG preprocessing/retrieval core of the repository
(`src/services/vectorUtils.ts`): boundary-aware text chunking (`chunkText`,
with its inner `splitIntoUnits`), cosine similarity (`cosineSimilarity`) and
top-K retrieval (`findRelevantChunks`).

Modelling conventions:
* JS strings are modelled as `List Char`; `String.prototype.length` is the
  list length (inputs considered are within the BMP, where the two agree).
* The JS regexes of the source are modelled by explicit scanners that follow
  the leftmost-match/backtracking semantics of the corresponding regex
  (`/\n\s*\n/` for paragraph splitting, `/\s+/` for whitespace collapsing,
  `/[^.!?]+[.!?]+(\s+|$)|[^.!?]+$/g` for sentence matching).
* Functions that walk a string are written with an explicit fuel argument
  (initialised with the string length) so that every definition is
  structurally recursive and kernel-reducible; all lemmas are stated for the
  fuel-adequate wrappers.
* JS numbers are modelled exactly by `ℚ`.  The real-valued cosine score
  `dot / (sqrt normA * sqrt normB)` is not rational, so `cosineSimilarity`
  returns its image under the strictly increasing bijection `x ↦ x * |x|`,
  namely `dot * |dot| / (normA * normB)`, which is rational, order-isomorphic
  to the real score and maps `0` to `0`.  The lemma `scoreOf_cast_eq` proves
  the correspondence with the real-valued `realCosine`, so every ordering or
  zero-ness statement transfers exactly.
* `Date.now()` is modelled by an explicit `now : Nat` argument of `chunkText`.
* A thrown JS `Error` is modelled by `Except.error`.
-/

namespace VectorUtils

open List

/-- Decidable equality of `Except` results, used to evaluate concrete calls. -/
instance {ε α : Type} [DecidableEq ε] [DecidableEq α] : DecidableEq (Except ε α) := fun a b =>
  match a, b with
  | .error e, .error f => if h : e = f then .isTrue (by rw [h]) else .isFalse (by simp [h])
  | .ok x, .ok y => if h : x = y then .isTrue (by rw [h]) else .isFalse (by simp [h])
  | .error _, .ok _ => .isFalse (by simp)
  | .ok _, .error _ => .isFalse (by simp)

/-- ASCII part of the JS regex class `\s` (space, tab, LF, VT, FF, CR),
used by `trim`, `split(/\n\s*\n/)` and `replace(/\s+/g, ' ')`. -/
def jsWs (c : Char) : Bool :=
  c = ' ' || c = '\t' || c = '\n' || c = '\x0b' || c = '\x0c' || c = '\r'

/-- The sentence-terminator class `[.!?]` of the sentence regex. -/
def isPunct (c : Char) : Bool := c = '.' || c = '!' || c = '?'

/-- The non-whitespace characters of a string, in order. -/
def filterNW (s : List Char) : List Char := s.filter (fun c => !jsWs c)

/-- `str.replace(/\r\n/g, '\n')`: leftmost, non-overlapping replacement. -/
def normalizeCRLF : List Char → List Char
  | [] => []
  | '\r' :: '\n' :: rest => '\n' :: normalizeCRLF rest
  | c :: rest => c :: normalizeCRLF rest

/-- `String.prototype.trim()`: strip leading and trailing whitespace. -/
def trimWs (s : List Char) : List Char :=
  ((s.dropWhile jsWs).reverse.dropWhile jsWs).reverse

/-- Index of the last `'\n'` in a list, if any. -/
def lastNlIdx : List Char → Option Nat
  | [] => none
  | c :: rest =>
    match lastNlIdx rest with
    | some i => some (i + 1)
    | none => if c = '\n' then some 0 else none

/-- Worker for `split(/\n\s*\n/)`.  A separator match starts at a `'\n'`; the
greedy `\s*` with backtracking makes it end at the last `'\n'` inside the
whitespace run that follows.  `cur` is the current piece, reversed. -/
def splitParasGo : Nat → List Char → List Char → List (List Char)
  | _, cur, [] => [cur.reverse]
  | 0, cur, s => [cur.reverse ++ s]
  | fuel + 1, cur, c :: rest =>
    if c = '\n' then
      match lastNlIdx (rest.takeWhile jsWs) with
      | some i => cur.reverse :: splitParasGo fuel [] (rest.drop (i + 1))
      | none => splitParasGo fuel (c :: cur) rest
    else splitParasGo fuel (c :: cur) rest

/-- `normalized.split(/\n\s*\n/)` of the source (line 25). -/
def splitParas (s : List Char) : List (List Char) := splitParasGo s.length [] s

/-- Worker computing the maximal non-whitespace runs ("words") of a string. -/
def wordsGo : Nat → List Char → List (List Char)
  | _, [] => []
  | 0, _ => []
  | fuel + 1, c :: rest =>
    if jsWs c then wordsGo fuel rest
    else (c :: rest.takeWhile (fun x => !jsWs x)) ::
      wordsGo fuel (rest.dropWhile (fun x => !jsWs x))

/-- The maximal non-whitespace runs of a string, in order. -/
def wordsOf (s : List Char) : List (List Char) := wordsGo s.length s

/-- Join a list of strings with a single space between consecutive ones
(`Array.prototype.join(' ')`). -/
def joinSp : List (List Char) → List Char
  | [] => []
  | [u] => u
  | u :: us => u ++ ' ' :: joinSp us

/-- `p.replace(/\s+/g, ' ').trim()` of the source (line 30): every maximal
whitespace run becomes one space and the ends are trimmed, which is exactly
the single-space join of the words. -/
def collapseWs (s : List Char) : List Char := joinSp (wordsOf s)

/-- Worker for `trimmedP.match(/[^.!?]+[.!?]+(\s+|$)|[^.!?]+$/g)` (line 39).
No match can start at a `[.!?]` character, so the engine advances by one.
At a non-terminator character, the first alternative consumes the run up to
the first terminator, the terminator run, and then requires whitespace or
end-of-input; if a non-space, non-terminator character follows instead, both
alternatives fail at this position and the engine advances by one. -/
def sentGo : Nat → List Char → List (List Char)
  | _, [] => []
  | 0, _ => []
  | fuel + 1, c :: rest =>
    if isPunct c then sentGo fuel rest
    else
      match rest.dropWhile (fun x => !isPunct x) with
      | [] => [c :: rest]
      | x :: afterPre' =>
        match (x :: afterPre').dropWhile isPunct with
        | [] => [c :: rest]
        | d :: afterP' =>
          if jsWs d then
            ((c :: rest.takeWhile (fun x => !isPunct x)) ++
              (x :: afterPre').takeWhile isPunct ++ (d :: afterP').takeWhile jsWs) ::
              sentGo fuel ((d :: afterP').dropWhile jsWs)
          else sentGo fuel rest

/-- All matches of the sentence regex in order (`[]` models a `null` result
of `String.prototype.match`, which returns `null` rather than `[]`). -/
def sentMatches (s : List Char) : List (List Char) := sentGo s.length s

/-- Worker for the hard-split loop (lines 47-51): consecutive slices
`trimmedS.slice(i, i + chunkSize)`. -/
def hardSplitGo (S : Nat) : Nat → List Char → List (List Char)
  | _, [] => []
  | 0, _ => []
  | fuel + 1, c :: rest => (c :: rest).take S :: hardSplitGo S fuel ((c :: rest).drop S)

/-- Hard-split a string into consecutive slices of length `S`
(the source only reaches this with `s.length > S ≥ 1`). -/
def hardSplit (S : Nat) (s : List Char) : List (List Char) :=
  hardSplitGo S s.length s

/-- Units contributed by one sentence match (lines 42-55): trim it, skip it
if blank, hard-split it if it is longer than `chunkSize`. -/
def sentenceUnits (S : Nat) (s : List Char) : List (List Char) :=
  let ts := trimWs s
  if ts = [] then []
  else if S < ts.length then hardSplit S ts
  else [ts]

/-- Units contributed by one paragraph (lines 29-62).  The JS threshold
`trimmedP.length < chunkSize * 0.5` is exactly `2 * length < chunkSize` for
integer `chunkSize` (`chunkSize * 0.5` is exact in binary floating point). -/
def paraUnits (S : Nat) (p : List Char) : List (List Char) :=
  let tp := collapseWs p
  if tp = [] then []
  else if 2 * tp.length < S then [tp]
  else
    match sentMatches tp with
    | [] => [tp]
    | m :: ms => ((m :: ms).map (sentenceUnits S)).flatten

/-- `splitIntoUnits` of the source (lines 20-64), with the enclosing
`chunkSize` made explicit. -/
def splitIntoUnits (S : Nat) (str : List Char) : List (List Char) :=
  ((splitParas (normalizeCRLF str)).map (paraUnits S)).flatten

/-- A chunk as returned by `chunkText`: `Omit<DocumentChunk, 'embedding'>`. -/
structure ChunkData where
  id : List Char
  sourceFile : List Char
  content : List Char
deriving DecidableEq

/-- The template literal of lines 81 and 114. -/
def mkId (sourceFile : List Char) (ordinal now : Nat) : List Char :=
  sourceFile ++ '-' :: (Nat.repr ordinal).toList ++ '-' :: (Nat.repr now).toList

/-- The backward overlap accumulation (lines 88-98), walking `rev` (the
current chunk's units, last first).  `olen` is `overlapCurrentLength` and
`acc` collects accepted units in restored order (`unshift`). -/
def overlapCalc (O : Nat) : List (List Char) → Nat → List (List Char) → List (List Char) × Nat
  | [], olen, acc => (acc, olen)
  | u :: rev, olen, acc =>
    if O < olen + u.length then (acc, olen)
    else overlapCalc O rev (olen + u.length + 1) (u :: acc)

/-- The chunk-building loop (lines 72-118) at the level of unit lists: the
state is `currentChunkUnits` (`cur`) and `currentChunkLength` (`len`); each
emitted element is the unit list of one chunk, in emission order, including
the final flush. -/
def packGo (S O : Nat) : List (List Char) → List (List Char) → Nat → List (List (List Char))
  | [], cur, _ => if cur = [] then [] else [cur]
  | u :: us, cur, len =>
    if S < len + u.length + 1 ∧ cur ≠ [] then
      cur :: packGo S O us ((overlapCalc O cur.reverse 0 []).1 ++ [u])
        ((overlapCalc O cur.reverse 0 []).2 + u.length + 1)
    else
      packGo S O us (cur ++ [u]) (len + u.length + 1)

/-- The unit lists of the chunks that `chunkText` emits. -/
def chunkUnitLists (S O : Nat) (text : List Char) : List (List (List Char)) :=
  packGo S O (splitIntoUnits S text) [] 0

/-- `currentChunkLength` as maintained by the loop: each unit contributes
its length plus one separator (`unitLength + 1`). -/
def sumLen (l : List (List Char)) : Nat := (l.map (fun u => u.length + 1)).sum

/-- The overlap units a closed chunk passes on to its successor. -/
def ovlOf (O : Nat) (l : List (List Char)) : List (List Char) :=
  (overlapCalc O l.reverse 0 []).1

/-- `chunkText` of the source (lines 12-121).  `Date.now()` is modelled by
the explicit `now` argument; `chunks.length` at push time is the ordinal of
the chunk, so the emission is the enumerated mapping over `chunkUnitLists`. -/
def chunkText (text sourceFile : List Char) (chunkSize overlap now : Nat) : List ChunkData :=
  if trimWs text = [] then []
  else
    (chunkUnitLists chunkSize overlap text).enum.map
      (fun pr => { id := mkId sourceFile pr.1 now
                   sourceFile := sourceFile
                   content := joinSp pr.2 })

/-- `DocumentChunk` of `src/types.ts` (lines 1-6). -/
structure DocumentChunk where
  id : List Char
  sourceFile : List Char
  content : List Char
  embedding : List ℚ
deriving DecidableEq

/-- Pairwise dot product (the loop of lines 133-137 accumulates exactly the
sum of pairwise products; the guard ensures equal lengths). -/
def dotQ (a b : List ℚ) : ℚ := (List.zipWith (· * ·) a b).sum

/-- `cosineSimilarity` of the source (lines 124-141).  The thrown error is
`Except.error`; the zero-norm guard returns `0`; the final value
`dot / (sqrt normA * sqrt normB)` is represented by its image
`dot * |dot| / (normA * normB)` under the strictly increasing map
`x ↦ x * |x|` (see `scoreOf_cast_eq` for the exact correspondence with the
real-valued score). -/
def cosineSimilarity (vecA vecB : List ℚ) : Except String ℚ :=
  if vecA.length ≠ vecB.length then .error "Vectors must have the same length"
  else
    let dotProduct := dotQ vecA vecB
    let normA := dotQ vecA vecA
    let normB := dotQ vecB vecB
    if normA = 0 ∨ normB = 0 then .ok 0
    else .ok (dotProduct * |dotProduct| / (normA * normB))

/-- The (represented) similarity score of a query against an embedding,
defaulting to `0` in the error case (only used on equal-length inputs). -/
def scoreOf (q v : List ℚ) : ℚ :=
  match cosineSimilarity q v with
  | .ok s => s
  | .error _ => 0

/-- `chunks.map(chunk => ({chunk, score: cosineSimilarity(...)}))` of lines
149-152: a thrown error propagates out of the whole call. -/
def scoreAll (q : List ℚ) : List DocumentChunk → Except String (List (DocumentChunk × ℚ))
  | [] => .ok []
  | c :: cs =>
    match cosineSimilarity q c.embedding, scoreAll q cs with
    | .error e, _ => .error e
    | .ok _, .error e => .error e
    | .ok s, .ok rest => .ok ((c, s) :: rest)

/-- The order `scoredChunks.sort((a, b) => b.score - a.score)` sorts into:
descending by score.  With exact arithmetic the comparator is consistent, so
the ECMAScript-mandated stable sort is extensionally the stable insertion
sort with respect to this relation. -/
def scoreGe (a b : DocumentChunk × ℚ) : Prop := b.2 ≤ a.2

instance : DecidableRel scoreGe := fun a b => inferInstanceAs (Decidable (b.2 ≤ a.2))

instance : IsTotal (DocumentChunk × ℚ) scoreGe := ⟨fun a b => le_total b.2 a.2⟩

instance : IsTrans (DocumentChunk × ℚ) scoreGe := ⟨fun _ _ _ h1 h2 => le_trans h2 h1⟩

/-- `findRelevantChunks` of the source (lines 144-158): score every chunk
(propagating a similarity error), sort descending by score with the stable
sort, take the first `topK` and strip the scores. -/
def findRelevantChunks (queryEmbedding : List ℚ) (chunks : List DocumentChunk)
    (topK : Nat) : Except String (List DocumentChunk) :=
  match scoreAll queryEmbedding chunks with
  | .error e => .error e
  | .ok scored => .ok (((List.insertionSort scoreGe scored).take topK).map Prod.fst)

/-- Modelled from the spec: the real-valued cosine similarity
"dot product divided by the product of their Euclidean norms", with the
spec's zero-norm convention; the mismatch case (excluded by the callers'
hypotheses) is given the junk value `0`.  This is the specification-side
meaning of the rational representation returned by `cosineSimilarity`. -/
noncomputable def realCosine (vecA vecB : List ℚ) : ℝ :=
  if vecA.length ≠ vecB.length then 0
  else if dotQ vecA vecA = 0 ∨ dotQ vecB vecB = 0 then 0
  else (dotQ vecA vecB : ℝ) / (Real.sqrt (dotQ vecA vecA) * Real.sqrt (dotQ vecB vecB))

/-- Concrete embedded chunks realising the retrieval scenario of spec §8
(vectors `[1,0]`, `[0,1]`, `[1,1]`). -/
def exChunk1 : DocumentChunk := ⟨['1'], [], [], [1, 0]⟩

/-- Second chunk of the spec §8 scenario. -/
def exChunk2 : DocumentChunk := ⟨['2'], [], [], [0, 1]⟩

/-- Third chunk of the spec §8 scenario. -/
def exChunk3 : DocumentChunk := ⟨['3'], [], [], [1, 1]⟩

/-- The knowledge base of the spec §8 scenario. -/
def exBase : List DocumentChunk := [exChunk1, exChunk2, exChunk3]

/-! ### Basic facts about `cosineSimilarity` and `scoreAll` -/

theorem cosineSimilarity_error_of_ne {vecA vecB : List ℚ}
    (h : vecA.length ≠ vecB.length) :
    cosineSimilarity vecA vecB = .error "Vectors must have the same length" := by
  simp [cosineSimilarity, h]

theorem cosineSimilarity_ok_of_eq {vecA vecB : List ℚ} (h : vecA.length = vecB.length) :
    cosineSimilarity vecA vecB = .ok (scoreOf vecA vecB) := by
  have hne : ¬ vecA.length ≠ vecB.length := by simp [h]
  rw [scoreOf]
  simp only [cosineSimilarity, if_neg hne]
  split <;> rfl

theorem scoreAll_error_of_mismatch {q : List ℚ} {base : List DocumentChunk}
    (h : ∃ c ∈ base, c.embedding.length ≠ q.length) :
    ∃ e, scoreAll q base = .error e := by
  induction base with
  | nil => simp at h
  | cons c cs ih =>
    rcases h with ⟨c', hc', hlen⟩
    rw [List.mem_cons] at hc'
    by_cases hc : q.length = c.embedding.length
    · rcases hc' with rfl | hc'
      · exact absurd hc.symm hlen
      · rcases ih ⟨c', hc', hlen⟩ with ⟨e, he⟩
        rw [scoreAll, cosineSimilarity_ok_of_eq hc, he]
        exact ⟨e, rfl⟩
    · rw [scoreAll, cosineSimilarity_error_of_ne hc]
      exact ⟨_, rfl⟩

theorem scoreAll_ok_eq {q : List ℚ} {base : List DocumentChunk} {l}
    (h : scoreAll q base = .ok l) :
    l = base.map (fun c => (c, scoreOf q c.embedding)) := by
  induction base generalizing l with
  | nil => simpa [scoreAll] using h.symm
  | cons c cs ih =>
    rw [scoreAll] at h
    rcases h1 : cosineSimilarity q c.embedding with e | s <;> rw [h1] at h
    · cases h
    rcases h2 : scoreAll q cs with e | rest <;> rw [h2] at h
    · cases h
    cases h
    have hlen : q.length = c.embedding.length := by
      by_contra hne
      rw [cosineSimilarity_error_of_ne hne] at h1
      cases h1
    rw [cosineSimilarity_ok_of_eq hlen] at h1
    cases h1
    simpa using ih h2

theorem scoreAll_ok_of_dims {q : List ℚ} {base : List DocumentChunk}
    (h : ∀ c ∈ base, c.embedding.length = q.length) :
    scoreAll q base = .ok (base.map (fun c => (c, scoreOf q c.embedding))) := by
  induction base with
  | nil => rfl
  | cons c cs ih =>
    rw [scoreAll, cosineSimilarity_ok_of_eq (h c (by simp)).symm,
      ih (fun c' hc' => h c' (by simp [hc']))]
    simp

/-- Claim C6: `cosineSimilarity` fails with the dimension-mismatch error
exactly when the two vectors have different lengths, and the error
propagates out of `findRelevantChunks` (it is never coerced into a numeric
result). -/
theorem cosineSimilarity_mismatch_iff :
    ∀ vecA vecB : List ℚ,
      ((∃ e, cosineSimilarity vecA vecB = .error e) ↔ vecA.length ≠ vecB.length) ∧
      (∀ (base : List DocumentChunk) (k : Nat),
        (∃ c ∈ base, c.embedding.length ≠ vecA.length) →
        ∃ e, findRelevantChunks vecA base k = .error e) := by
  intro vecA vecB
  constructor
  · constructor
    · rintro ⟨e, he⟩ hlen
      rw [cosineSimilarity_ok_of_eq hlen] at he
      cases he
    · intro hne
      exact ⟨_, cosineSimilarity_error_of_ne hne⟩
  · intro base k hmem
    rcases scoreAll_error_of_mismatch hmem with ⟨e, he⟩
    exact ⟨e, by rw [findRelevantChunks, he]⟩

theorem cosineSimilarity_mismatch_iff_witness :
    (∃ e, cosineSimilarity [(1 : ℚ)] [1, 2] = .error e) ∧
    (∃ c ∈ [DocumentChunk.mk ['i'] [] [] [1, 2]],
      c.embedding.length ≠ [(1 : ℚ)].length) ∧
    (∃ e, findRelevantChunks [(1 : ℚ)] [DocumentChunk.mk ['i'] [] [] [1, 2]] 1 = .error e) :=
  ⟨(cosineSimilarity_mismatch_iff [(1 : ℚ)] [1, 2]).1.mpr (by simp),
    ⟨DocumentChunk.mk ['i'] [] [] [1, 2], by simp, by simp⟩,
    (cosineSimilarity_mismatch_iff [(1 : ℚ)] [1, 2]).2
      [DocumentChunk.mk ['i'] [] [] [1, 2]] 1
      ⟨DocumentChunk.mk ['i'] [] [] [1, 2], by simp, by simp⟩⟩

theorem dotQ_self_eq_zero_of_zero {v : List ℚ} (h : ∀ x ∈ v, x = 0) : dotQ v v = 0 := by
  rw [dotQ, List.zipWith_same]
  refine List.sum_eq_zero ?_
  intro x hx
  rcases List.mem_map.mp hx with ⟨a, ha, rfl⟩
  rw [h a ha, mul_zero]

/-- Claim C9: on equal-length vectors, if either vector is the zero vector
(equivalently, has zero Euclidean norm), `cosineSimilarity` returns exactly
`0` (no division by zero is attempted). -/
theorem cosineSimilarity_zero_norm :
    ∀ vecA vecB : List ℚ, vecA.length = vecB.length →
      ((∀ x ∈ vecA, x = 0) ∨ (∀ x ∈ vecB, x = 0)) →
      cosineSimilarity vecA vecB = .ok 0 := by
  intro vecA vecB hlen hz
  have h0 : dotQ vecA vecA = 0 ∨ dotQ vecB vecB = 0 :=
    hz.imp dotQ_self_eq_zero_of_zero dotQ_self_eq_zero_of_zero
  simp [cosineSimilarity, hlen, h0]

theorem cosineSimilarity_zero_norm_witness :
    ([(0 : ℚ), 0].length = [(3 : ℚ), 4].length) ∧
    (∀ x ∈ [(0 : ℚ), 0], x = 0) ∧
    cosineSimilarity [(0 : ℚ), 0] [3, 4] = .ok 0 :=
  ⟨rfl, by simp,
    cosineSimilarity_zero_norm [(0 : ℚ), 0] [3, 4] rfl (Or.inl (by simp))⟩

/-! ### The shape of a successful `findRelevantChunks` call -/

theorem findRelevantChunks_ok_eq {q : List ℚ} {base : List DocumentChunk} {k : Nat} {r}
    (h : findRelevantChunks q base k = .ok r) :
    r = ((List.insertionSort scoreGe
      (base.map (fun c => (c, scoreOf q c.embedding)))).take k).map Prod.fst := by
  rw [findRelevantChunks] at h
  rcases h2 : scoreAll q base with e | scored <;> rw [h2] at h
  · cases h
  · cases h
    rw [scoreAll_ok_eq h2]

theorem findRelevantChunks_subset {q : List ℚ} {base : List DocumentChunk} {k : Nat} {r}
    (h : findRelevantChunks q base k = .ok r) : ∀ c ∈ r, c ∈ base := by
  intro c hc
  rw [findRelevantChunks_ok_eq h] at hc
  rcases List.mem_map.mp hc with ⟨x, hx, rfl⟩
  have hx2 : x ∈ List.insertionSort scoreGe
      (base.map (fun c => (c, scoreOf q c.embedding))) :=
    (List.take_sublist _ _).subset hx
  have hx3 := (List.perm_insertionSort scoreGe _).mem_iff.mp hx2
  rcases List.mem_map.mp hx3 with ⟨c', hc', hhx⟩
  cases hhx
  exact hc'

/-- Claim C3 counterexample: the elements returned by `findRelevantChunks`
do NOT have their embedding stripped — on the spec §8 scenario the returned
chunks still carry their full, non-empty embedding vectors. -/
theorem findRelevantChunks_embedding_not_stripped :
    findRelevantChunks [(1 : ℚ), 0] exBase 2 = .ok [exChunk1, exChunk3] ∧
    (exChunk1.embedding = [1, 0] ∧ exChunk1.embedding ≠ []) ∧
    (exChunk3.embedding = [1, 1] ∧ exChunk3.embedding ≠ []) := by
  refine ⟨?_, ⟨rfl, by simp [exChunk1]⟩, ⟨rfl, by simp [exChunk3]⟩⟩
  norm_num [findRelevantChunks, scoreAll, cosineSimilarity, dotQ, exBase,
    exChunk1, exChunk2, exChunk3, List.insertionSort, List.orderedInsert, scoreGe]

/-- Claim C3 (amended): every element of a successful `findRelevantChunks`
result is an element of the input base returned whole — the record equality
includes the `embedding` field, so the chunk's vector is returned along with
the chunk data rather than being stripped. -/
theorem findRelevantChunks_returns_whole_chunks :
    ∀ (q : List ℚ) (base : List DocumentChunk) (k : Nat) (r : List DocumentChunk),
      findRelevantChunks q base k = .ok r →
      ∀ c ∈ r, ∃ c' ∈ base, c = c' ∧ c.embedding = c'.embedding :=
  fun _ base k r h c hc =>
    ⟨c, findRelevantChunks_subset h c hc, rfl, rfl⟩

theorem findRelevantChunks_returns_whole_chunks_witness :
    findRelevantChunks [(1 : ℚ)] [DocumentChunk.mk ['i'] [] [] [1]] 1 =
      .ok [DocumentChunk.mk ['i'] [] [] [1]] ∧
    (∀ c ∈ [DocumentChunk.mk ['i'] [] [] [1]],
      ∃ c' ∈ [DocumentChunk.mk ['i'] [] [] [1]], c = c' ∧ c.embedding = c'.embedding) := by
  have hok : findRelevantChunks [(1 : ℚ)] [DocumentChunk.mk ['i'] [] [] [1]] 1 =
      .ok [DocumentChunk.mk ['i'] [] [] [1]] := by
    norm_num [findRelevantChunks, scoreAll, cosineSimilarity, dotQ,
      List.insertionSort, List.orderedInsert, scoreGe]
  exact ⟨hok, findRelevantChunks_returns_whole_chunks [(1 : ℚ)]
    [DocumentChunk.mk ['i'] [] [] [1]] 1 [DocumentChunk.mk ['i'] [] [] [1]] hok⟩

theorem map_fst_map_score (q : List ℚ) :
    ∀ bs : List DocumentChunk, (bs.map (fun c => (c, scoreOf q c.embedding))).map Prod.fst = bs
  | [] => rfl
  | c :: cs => by simp only [List.map_cons, map_fst_map_score q cs]

/-- Claim C10: every chunk in a successful result is an element of the
input base, and no chunk occurs more often in the result than in the base:
the result is a selection of positions of the base, never fabricated or
duplicated. -/
theorem findRelevantChunks_selection :
    ∀ (q : List ℚ) (base : List DocumentChunk) (k : Nat) (r : List DocumentChunk),
      findRelevantChunks q base k = .ok r →
      (∀ c ∈ r, c ∈ base) ∧ ∀ c : DocumentChunk, r.count c ≤ base.count c := by
  intro q base k r h
  refine ⟨findRelevantChunks_subset h, ?_⟩
  intro c
  rw [findRelevantChunks_ok_eq h]
  have h1 : (((List.insertionSort scoreGe
      (base.map (fun c => (c, scoreOf q c.embedding)))).take k).map Prod.fst).count c ≤
      ((List.insertionSort scoreGe
        (base.map (fun c => (c, scoreOf q c.embedding)))).map Prod.fst).count c :=
    List.Sublist.count_le ((List.take_sublist _ _).map Prod.fst) c
  have h2 : ((List.insertionSort scoreGe
      (base.map (fun c => (c, scoreOf q c.embedding)))).map Prod.fst).count c =
      ((base.map (fun c => (c, scoreOf q c.embedding))).map Prod.fst).count c :=
    ((List.perm_insertionSort scoreGe _).map Prod.fst).count_eq c
  rw [map_fst_map_score q base] at h2
  exact h1.trans (le_of_eq h2)

theorem findRelevantChunks_selection_witness :
    findRelevantChunks [(1 : ℚ), 0] exBase 2 = .ok [exChunk1, exChunk3] ∧
    (∀ c ∈ [exChunk1, exChunk3], c ∈ exBase) ∧
    (∀ c : DocumentChunk, [exChunk1, exChunk3].count c ≤ exBase.count c) := by
  have hok : findRelevantChunks [(1 : ℚ), 0] exBase 2 = .ok [exChunk1, exChunk3] := by
    norm_num [findRelevantChunks, scoreAll, cosineSimilarity, dotQ, exBase,
      exChunk1, exChunk2, exChunk3, List.insertionSort, List.orderedInsert, scoreGe]
  exact ⟨hok, findRelevantChunks_selection [(1 : ℚ), 0] exBase 2 [exChunk1, exChunk3] hok⟩

/-! ### Stability of the sort and the order-isomorphism with the real score -/

theorem filter_orderedInsert_eq {s : ℚ} {x : DocumentChunk × ℚ} (hx : x.2 = s) :
    ∀ l : List (DocumentChunk × ℚ),
      (List.orderedInsert scoreGe x l).filter (fun y => y.2 = s) =
        x :: l.filter (fun y => y.2 = s)
  | [] => by simp [List.orderedInsert, hx]
  | y :: ys => by
    rw [List.orderedInsert]
    by_cases hr : scoreGe x y
    · rw [if_pos hr]
      simp [List.filter_cons, hx]
    · rw [if_neg hr]
      have hy : ¬ y.2 = s := by
        intro he
        exact hr (le_of_eq (by rw [hx, he]))
      simp only [List.filter_cons, decide_eq_true_eq, hy, if_false,
        filter_orderedInsert_eq hx ys]

theorem filter_orderedInsert_ne {s : ℚ} {x : DocumentChunk × ℚ} (hx : ¬ x.2 = s) :
    ∀ l : List (DocumentChunk × ℚ),
      (List.orderedInsert scoreGe x l).filter (fun y => y.2 = s) =
        l.filter (fun y => y.2 = s)
  | [] => by simp [List.orderedInsert, hx]
  | y :: ys => by
    rw [List.orderedInsert]
    by_cases hr : scoreGe x y
    · rw [if_pos hr]
      simp [List.filter_cons, hx]
    · rw [if_neg hr]
      simp only [List.filter_cons, filter_orderedInsert_ne hx ys]

theorem filter_insertionSort_score (s : ℚ) :
    ∀ l : List (DocumentChunk × ℚ),
      (List.insertionSort scoreGe l).filter (fun y => y.2 = s) =
        l.filter (fun y => y.2 = s)
  | [] => rfl
  | x :: l => by
    rw [List.insertionSort]
    by_cases hx : x.2 = s
    · rw [filter_orderedInsert_eq hx, filter_insertionSort_score s l]
      simp [List.filter_cons, hx]
    · rw [filter_orderedInsert_ne hx, filter_insertionSort_score s l]
      simp [List.filter_cons, hx]

theorem mulAbs_strictMono : StrictMono (fun x : ℝ => x * |x|) := by
  intro a b hab
  simp only
  rcases le_or_lt 0 a with ha | ha
  · rw [abs_of_nonneg ha, abs_of_nonneg (le_trans ha hab.le)]
    nlinarith
  · rcases le_or_lt 0 b with hb | hb
    · rw [abs_of_neg ha, abs_of_nonneg hb]
      nlinarith
    · rw [abs_of_neg ha, abs_of_neg hb]
      nlinarith

theorem dotQ_self_nonneg (v : List ℚ) : 0 ≤ dotQ v v := by
  rw [dotQ, List.zipWith_same]
  refine List.sum_nonneg ?_
  intro x hx
  rcases List.mem_map.mp hx with ⟨a, _, rfl⟩
  exact mul_self_nonneg a

/-- The rational value returned by `cosineSimilarity` is the image of the
real cosine score under the strictly increasing map `x ↦ x * |x|`. -/
theorem scoreOf_cast_eq {q v : List ℚ} (h : q.length = v.length) :
    (scoreOf q v : ℝ) = realCosine q v * |realCosine q v| := by
  have hne : ¬ q.length ≠ v.length := by simp [h]
  rw [scoreOf, realCosine]
  simp only [cosineSimilarity, if_neg hne]
  by_cases h0 : dotQ q q = 0 ∨ dotQ v v = 0
  · simp only [if_pos h0]
    simp
  · simp only [if_neg h0]
    have hq : (0 : ℝ) < (dotQ q q : ℝ) := by
      have h1 := dotQ_self_nonneg q
      have h2 : dotQ q q ≠ 0 := fun hc => h0 (Or.inl hc)
      exact_mod_cast lt_of_le_of_ne h1 (Ne.symm h2)
    have hv : (0 : ℝ) < (dotQ v v : ℝ) := by
      have h1 := dotQ_self_nonneg v
      have h2 : dotQ v v ≠ 0 := fun hc => h0 (Or.inr hc)
      exact_mod_cast lt_of_le_of_ne h1 (Ne.symm h2)
    have hsq : (0 : ℝ) < Real.sqrt (dotQ q q) * Real.sqrt (dotQ v v) :=
      mul_pos (Real.sqrt_pos.mpr hq) (Real.sqrt_pos.mpr hv)
    push_cast
    rw [abs_div, abs_of_pos hsq, div_mul_div_comm,
      mul_mul_mul_comm, Real.mul_self_sqrt hq.le, Real.mul_self_sqrt hv.le]

/-- Comparisons of the rational representation agree with comparisons of
the real cosine score. -/
theorem scoreOf_le_iff {q v w : List ℚ} (hv : q.length = v.length)
    (hw : q.length = w.length) :
    (scoreOf q v ≤ scoreOf q w) ↔ realCosine q v ≤ realCosine q w := by
  rw [show (scoreOf q v ≤ scoreOf q w) ↔
      ((scoreOf q v : ℝ) ≤ (scoreOf q w : ℝ)) from (Rat.cast_le).symm,
    scoreOf_cast_eq hv, scoreOf_cast_eq hw]
  exact mulAbs_strictMono.le_iff_le

/-- Claim C5: on a base whose embeddings all match the query's dimension,
a successful `findRelevantChunks` call returns `min k |base|` chunks (empty
whenever the base is empty, for every `k`), sorted non-increasingly by their
real cosine-similarity score against the query, with ties broken by original
insertion order: for each score value, the result's chunks attaining it form
a prefix of the base's subsequence of chunks attaining it (stable sort). -/
theorem findRelevantChunks_ranking :
    ∀ (q : List ℚ) (base : List DocumentChunk) (k : Nat) (r : List DocumentChunk),
      (∀ c ∈ base, c.embedding.length = q.length) →
      findRelevantChunks q base k = .ok r →
      r.length = min k base.length ∧
      (base = [] → r = []) ∧
      List.Chain' (fun c₁ c₂ =>
        realCosine q c₂.embedding ≤ realCosine q c₁.embedding) r ∧
      (∀ s : ℚ, r.filter (fun c => scoreOf q c.embedding = s) <+:
        base.filter (fun c => scoreOf q c.embedding = s)) := by
  intro q base k r hdim hok
  have hr := findRelevantChunks_ok_eq hok
  have hperm := List.perm_insertionSort scoreGe
    (base.map (fun c => (c, scoreOf q c.embedding)))
  refine ⟨?_, ?_, ?_, ?_⟩
  · rw [hr, List.length_map, List.length_take, hperm.length_eq, List.length_map]
  · intro hbase
    subst hbase
    simpa using hr
  · have hmem : ∀ x ∈ (List.insertionSort scoreGe
        (base.map (fun c => (c, scoreOf q c.embedding)))).take k,
        x.1 ∈ base ∧ x.2 = scoreOf q x.1.embedding := by
      intro x hx
      have hx2 := hperm.mem_iff.mp ((List.take_sublist _ _).subset hx)
      rcases List.mem_map.mp hx2 with ⟨c, hc, rfl⟩
      exact ⟨hc, rfl⟩
    have htake : List.Pairwise scoreGe ((List.insertionSort scoreGe
        (base.map (fun c => (c, scoreOf q c.embedding)))).take k) :=
      (List.sorted_insertionSort scoreGe _).sublist (List.take_sublist _ _)
    have hchainPairs : List.Pairwise (fun a b : DocumentChunk × ℚ =>
        realCosine q b.1.embedding ≤ realCosine q a.1.embedding)
        ((List.insertionSort scoreGe
          (base.map (fun c => (c, scoreOf q c.embedding)))).take k) := by
      refine List.Pairwise.imp_of_mem ?_ htake
      intro a b ha hb hab
      have ha2 := hmem a ha
      have hb2 := hmem b hb
      rw [scoreGe, hb2.2, ha2.2] at hab
      exact (scoreOf_le_iff (hdim b.1 hb2.1).symm (hdim a.1 ha2.1).symm).mp hab
    rw [hr]
    exact (List.pairwise_map.mpr hchainPairs).chain'
  · intro s
    have hmem : ∀ x ∈ (List.insertionSort scoreGe
        (base.map (fun c => (c, scoreOf q c.embedding)))).take k,
        x.2 = scoreOf q x.1.embedding := by
      intro x hx
      have hx2 := hperm.mem_iff.mp ((List.take_sublist _ _).subset hx)
      rcases List.mem_map.mp hx2 with ⟨c, hc, rfl⟩
      rfl
    rw [hr, List.filter_map]
    have hcongr : ((List.insertionSort scoreGe
        (base.map (fun c => (c, scoreOf q c.embedding)))).take k).filter
          ((fun c => decide (scoreOf q c.embedding = s)) ∘ Prod.fst) =
        ((List.insertionSort scoreGe
          (base.map (fun c => (c, scoreOf q c.embedding)))).take k).filter
          (fun y => y.2 = s) := by
      refine List.filter_congr ?_
      intro y hy
      simp only [Function.comp_apply, ← hmem y hy]
    rw [hcongr]
    have hpre : ((List.insertionSort scoreGe
        (base.map (fun c => (c, scoreOf q c.embedding)))).take k).filter
          (fun y => y.2 = s) <+:
        (List.insertionSort scoreGe
          (base.map (fun c => (c, scoreOf q c.embedding)))).filter
          (fun y => y.2 = s) := by
      conv_rhs => rw [← List.take_append_drop k (List.insertionSort scoreGe
        (base.map (fun c => (c, scoreOf q c.embedding))))]
      rw [List.filter_append]
      exact ⟨_, rfl⟩
    rw [filter_insertionSort_score, List.filter_map] at hpre
    have h5 := hpre.map Prod.fst
    rw [map_fst_map_score] at h5
    exact h5

theorem findRelevantChunks_ranking_witness :
    (∀ c ∈ exBase, c.embedding.length = ([(1 : ℚ), 0]).length) ∧
    findRelevantChunks [(1 : ℚ), 0] exBase 2 = .ok [exChunk1, exChunk3] ∧
    ([exChunk1, exChunk3].length = min 2 exBase.length ∧
      (exBase = [] → [exChunk1, exChunk3] = []) ∧
      List.Chain' (fun c₁ c₂ => realCosine [(1 : ℚ), 0] c₂.embedding ≤
        realCosine [(1 : ℚ), 0] c₁.embedding) [exChunk1, exChunk3] ∧
      (∀ s : ℚ, [exChunk1, exChunk3].filter
          (fun c => scoreOf [(1 : ℚ), 0] c.embedding = s) <+:
        exBase.filter (fun c => scoreOf [(1 : ℚ), 0] c.embedding = s))) := by
  have hdim : ∀ c ∈ exBase, c.embedding.length = ([(1 : ℚ), 0]).length := by
    decide
  have hok : findRelevantChunks [(1 : ℚ), 0] exBase 2 = .ok [exChunk1, exChunk3] := by
    norm_num [findRelevantChunks, scoreAll, cosineSimilarity, dotQ, exBase,
      exChunk1, exChunk2, exChunk3, List.insertionSort, List.orderedInsert, scoreGe]
  exact ⟨hdim, hok,
    findRelevantChunks_ranking [(1 : ℚ), 0] exBase 2 [exChunk1, exChunk3] hdim hok⟩

/-! ### Identifier structure and timestamp dependence of `chunkText` -/

/-- Claim C4 counterexample: two `chunkText` calls with identical text,
sourceFile, targetSize and overlap, issued at different wall-clock instants
(`Date.now()` values `0` and `1`), return different chunk sequences — the
identifiers embed the timestamp. -/
theorem chunkText_ids_time_dependent :
    chunkText ['a'] ['f'] 800 100 0 ≠ chunkText ['a'] ['f'] 800 100 1 ∧
    (chunkText ['a'] ['f'] 800 100 0).map ChunkData.id = [['f', '-', '0', '-', '0']] ∧
    (chunkText ['a'] ['f'] 800 100 1).map ChunkData.id = [['f', '-', '0', '-', '1']] :=
  ⟨by decide, by decide, by decide⟩

/-- Claim C4 (amended): `chunkText` is deterministic once the ambient
timestamp is fixed: the emitted sourceFile tags and contents are functions
of the arguments alone (independent of the timestamp), and each emitted
identifier is derived from the sourceFile, the chunk's ordinal position
among the chunks emitted for the document, and the call's timestamp. -/
theorem chunkText_deterministic_up_to_now :
    ∀ (text src : List Char) (S O n₁ n₂ : Nat),
      (chunkText text src S O n₁).map (fun c => (c.sourceFile, c.content)) =
        (chunkText text src S O n₂).map (fun c => (c.sourceFile, c.content)) ∧
      ∀ (i : Nat) (c : ChunkData), (chunkText text src S O n₁)[i]? = some c →
        c.id = mkId src i n₁ ∧ c.sourceFile = src := by
  intro text src S O n₁ n₂
  rw [chunkText, chunkText]
  split
  · exact ⟨rfl, by intro i c h; simp at h⟩
  · constructor
    · rw [List.map_map, List.map_map]
      rfl
    · intro i c h
      rw [List.getElem?_map, List.enum_eq_enumFrom, List.getElem?_enumFrom] at h
      rcases h3 : (chunkUnitLists S O text)[i]? with _ | us <;> rw [h3] at h
      · cases h
      · cases h
        exact ⟨by rw [Nat.zero_add], rfl⟩

/-! ### Whitespace bookkeeping: `filterNW`, `trimWs`, `wordsOf`, `collapseWs` -/

theorem filterNW_cons (c : Char) (l : List Char) :
    filterNW (c :: l) = if jsWs c then filterNW l else c :: filterNW l := by
  rw [filterNW, List.filter_cons]
  cases h : jsWs c <;> simp [filterNW, h]

theorem filterNW_append (a b : List Char) :
    filterNW (a ++ b) = filterNW a ++ filterNW b := by
  rw [filterNW, List.filter_append]
  rfl

theorem filterNW_eq_nil_iff {s : List Char} : filterNW s = [] ↔ ∀ c ∈ s, jsWs c := by
  rw [filterNW, List.filter_eq_nil_iff]
  simp

theorem filterNW_idem (s : List Char) : filterNW (filterNW s) = filterNW s := by
  conv_lhs => rw [filterNW]
  refine List.filter_eq_self.mpr ?_
  intro a ha
  rw [filterNW, List.mem_filter] at ha
  exact ha.2

theorem filterNW_dropWhile (s : List Char) :
    filterNW (List.dropWhile jsWs s) = filterNW s := by
  conv_rhs => rw [← List.takeWhile_append_dropWhile jsWs s]
  rw [filterNW_append,
    filterNW_eq_nil_iff.mpr (fun c hc => List.mem_takeWhile_imp hc), List.nil_append]

theorem filterNW_reverse (s : List Char) : filterNW s.reverse = (filterNW s).reverse := by
  rw [filterNW, filterNW, List.filter_reverse]

theorem filterNW_trimWs (s : List Char) : filterNW (trimWs s) = filterNW s := by
  rw [trimWs, filterNW_reverse, filterNW_dropWhile, filterNW_reverse,
    List.reverse_reverse, filterNW_dropWhile]

theorem trimWs_eq_nil_iff {s : List Char} : trimWs s = [] ↔ filterNW s = [] := by
  constructor
  · intro h
    rw [← filterNW_trimWs s, h]
    rfl
  · intro h
    rw [trimWs, List.dropWhile_eq_nil_iff.mpr (filterNW_eq_nil_iff.mp h)]
    rfl

theorem wordsGo_flatten : ∀ (fuel : Nat) (s : List Char), s.length ≤ fuel →
    (wordsGo fuel s).flatten = filterNW s := by
  intro fuel
  induction fuel with
  | zero =>
    intro s hs
    rw [List.length_eq_zero.mp (Nat.le_zero.mp hs)]
    rfl
  | succ fuel ih =>
    intro s hs
    cases s with
    | nil => rfl
    | cons c rest =>
      rw [wordsGo]
      by_cases hc : jsWs c
      · rw [if_pos hc, ih rest (by simpa using hs), filterNW_cons, if_pos hc]
      · rw [if_neg hc]
        have hlen : (rest.dropWhile (fun x => !jsWs x)).length ≤ fuel :=
          le_trans ((List.dropWhile_suffix _).sublist.length_le) (by simpa using hs)
        rw [List.flatten_cons, ih _ hlen, filterNW_cons, if_neg hc]
        have h2 : filterNW rest =
            rest.takeWhile (fun x => !jsWs x) ++ filterNW (rest.dropWhile (fun x => !jsWs x)) := by
          conv_lhs => rw [← List.takeWhile_append_dropWhile (fun x => !jsWs x) rest]
          rw [filterNW_append]
          congr 1
          exact List.filter_eq_self.mpr (fun a ha => by simpa using List.mem_takeWhile_imp ha)
        rw [h2]
        rfl

theorem wordsGo_sound : ∀ (fuel : Nat) (s : List Char), ∀ w ∈ wordsGo fuel s,
    w ≠ [] ∧ ∀ c ∈ w, jsWs c = false := by
  intro fuel
  induction fuel with
  | zero =>
    intro s w hw
    cases s <;> simp [wordsGo] at hw
  | succ fuel ih =>
    intro s w hw
    cases s with
    | nil => simp [wordsGo] at hw
    | cons c rest =>
      rw [wordsGo] at hw
      by_cases hc : jsWs c
      · rw [if_pos hc] at hw
        exact ih rest w hw
      · rw [if_neg hc] at hw
        rcases List.mem_cons.mp hw with rfl | hw
        · refine ⟨by simp, ?_⟩
          intro x hx
          rcases List.mem_cons.mp hx with rfl | hx
          · exact Bool.eq_false_iff.mpr hc
          · have h3 := List.mem_takeWhile_imp hx
            simpa using h3
        · exact ih _ w hw

theorem joinSp_cons_cons (u v : List Char) (us : List (List Char)) :
    joinSp (u :: v :: us) = u ++ ' ' :: joinSp (v :: us) := rfl

theorem filterNW_joinSp : ∀ l : List (List Char), filterNW (joinSp l) = filterNW l.flatten
  | [] => rfl
  | [u] => by simp [joinSp]
  | u :: v :: us => by
    have hsp : jsWs ' ' = true := rfl
    rw [joinSp_cons_cons, filterNW_append, filterNW_cons, if_pos hsp,
      filterNW_joinSp (v :: us)]
    simp [List.flatten_cons, filterNW_append]

theorem collapseWs_filterNW (s : List Char) : filterNW (collapseWs s) = filterNW s := by
  rw [collapseWs, filterNW_joinSp, wordsOf, wordsGo_flatten s.length s le_rfl, filterNW_idem]

theorem collapseWs_eq_nil_iff (s : List Char) : collapseWs s = [] ↔ filterNW s = [] := by
  constructor
  · intro h
    rw [← collapseWs_filterNW s, h]
    rfl
  · intro h
    have hws : (wordsOf s).flatten = [] := by
      rw [wordsOf, wordsGo_flatten s.length s le_rfl, h]
    have hnil : wordsOf s = [] := by
      cases hw : wordsOf s with
      | nil => rfl
      | cons w ws =>
        have h1 := (wordsGo_sound s.length s w (by rw [← wordsOf, hw]; simp)).1
        rw [hw, List.flatten_cons, List.append_eq_nil] at hws
        exact absurd hws.1 h1
    rw [collapseWs, hnil]
    rfl

theorem getLast?_cons_of_ne {α : Type} {a : α} {l : List α} {c : α}
    (h : l.getLast? = some c) : (a :: l).getLast? = some c := by
  cases l with
  | nil => cases h
  | cons b t =>
    rw [List.getLast?_cons_cons]
    exact h

theorem joinSp_getLast_nonws : ∀ l : List (List Char),
    (∀ w ∈ l, w ≠ [] ∧ ∀ c ∈ w, jsWs c = false) → l ≠ [] →
    ∃ c, (joinSp l).getLast? = some c ∧ jsWs c = false
  | [], _, hne => absurd rfl hne
  | [u], h, _ => by
    have hu := h u (by simp)
    exact ⟨u.getLast hu.1, List.getLast?_eq_getLast u hu.1, hu.2 _ (List.getLast_mem hu.1)⟩
  | u :: v :: us, h, _ => by
    rcases joinSp_getLast_nonws (v :: us) (fun w hw => h w (by simp [hw])) (by simp)
      with ⟨c, hc, hcw⟩
    refine ⟨c, ?_, hcw⟩
    rw [joinSp_cons_cons, List.getLast?_append_of_ne_nil u (by simp)]
    exact getLast?_cons_of_ne hc

theorem collapseWs_getLast_nonws (s : List Char) (h : collapseWs s ≠ []) :
    ∃ c, (collapseWs s).getLast? = some c ∧ jsWs c = false := by
  rw [collapseWs] at h ⊢
  refine joinSp_getLast_nonws (wordsOf s) (fun w hw => wordsGo_sound s.length s w hw) ?_
  intro hnil
  rw [hnil] at h
  exact h rfl

/-! ### Paragraph splitting preserves the non-whitespace characters -/

theorem normalizeCRLF_filterNW (s : List Char) :
    filterNW (normalizeCRLF s) = filterNW s := by
  induction s using normalizeCRLF.induct with
  | case1 => rfl
  | case2 rest ih =>
    have h1 : jsWs '\n' = true := rfl
    have h2 : jsWs '\r' = true := rfl
    rw [normalizeCRLF, filterNW_cons, if_pos h1, ih, filterNW_cons, if_pos h2,
      filterNW_cons, if_pos h1]
  | case3 c rest hne ih =>
    rw [normalizeCRLF]
    · rw [filterNW_cons, filterNW_cons, ih]
    · exact hne

theorem lastNlIdx_lt_length : ∀ {l : List Char} {i : Nat},
    lastNlIdx l = some i → i < l.length
  | [], _, h => by cases h
  | c :: rest, i, h => by
    rw [lastNlIdx] at h
    rcases h2 : lastNlIdx rest with _ | j <;> rw [h2] at h
    · by_cases hc : c = '\n'
      · rw [if_pos hc] at h
        cases h
        simp
      · rw [if_neg hc] at h
        cases h
    · cases h
      have h3 := lastNlIdx_lt_length h2
      simp only [List.length_cons]
      omega

theorem take_of_takeWhile_ws {s : List Char} {n : Nat}
    (hn : n ≤ (s.takeWhile jsWs).length) : ∀ c ∈ s.take n, jsWs c := by
  intro c hc
  have h1 : s.take n = (s.takeWhile jsWs).take n := by
    conv_lhs => rw [← List.takeWhile_append_dropWhile jsWs s]
    rw [List.take_append_eq_append_take, Nat.sub_eq_zero_of_le hn, List.take_zero,
      List.append_nil]
  rw [h1] at hc
  exact List.mem_takeWhile_imp (List.mem_of_mem_take hc)

theorem splitParasGo_filterNW : ∀ (fuel : Nat) (cur s : List Char), s.length ≤ fuel →
    ((splitParasGo fuel cur s).map filterNW).flatten = filterNW cur.reverse ++ filterNW s := by
  intro fuel
  induction fuel with
  | zero =>
    intro cur s hs
    rw [List.length_eq_zero.mp (Nat.le_zero.mp hs)]
    simp [splitParasGo, filterNW]
  | succ fuel ih =>
    intro cur s hs
    cases s with
    | nil => simp [splitParasGo, filterNW]
    | cons c rest =>
      rw [splitParasGo]
      by_cases hc : c = '\n'
      · rw [if_pos hc]
        split
        next i heq =>
          rw [List.map_cons, List.flatten_cons,
            ih [] (rest.drop (i + 1))
              (by simp only [List.length_cons] at hs; simp only [List.length_drop]; omega)]
          have hsep : filterNW (rest.take (i + 1)) = [] := by
            refine filterNW_eq_nil_iff.mpr ?_
            refine take_of_takeWhile_ws ?_
            have h4 := lastNlIdx_lt_length heq
            omega
          have hrest : filterNW rest = filterNW (rest.drop (i + 1)) := by
            conv_lhs => rw [← List.take_append_drop (i + 1) rest]
            rw [filterNW_append, hsep, List.nil_append]
          subst hc
          have h1 : jsWs '\n' = true := rfl
          rw [filterNW_cons, if_pos h1, hrest]
          simp [filterNW]
        next heq =>
          rw [ih (c :: cur) rest (by simpa using hs), List.reverse_cons, filterNW_append,
            filterNW_cons, filterNW_cons]
          subst hc
          have h1 : jsWs '\n' = true := rfl
          simp [filterNW, h1]
      · rw [if_neg hc]
        rw [ih (c :: cur) rest (by simpa using hs), List.reverse_cons, filterNW_append,
          filterNW_cons, filterNW_cons]
        by_cases hw : jsWs c
        · simp [filterNW, hw]
        · simp [filterNW, hw]

theorem splitParas_filterNW (s : List Char) :
    ((splitParas s).map filterNW).flatten = filterNW s := by
  rw [splitParas, splitParasGo_filterNW s.length [] s le_rfl]
  rfl

/-! ### Sentence matching -/

theorem head_dropWhile_false {α : Type} {p : α → Bool} :
    ∀ {l : List α} {b : α} {t : List α}, l.dropWhile p = b :: t → p b = false
  | [], _, _, h => by cases h
  | a :: l, b, t, h => by
    rw [List.dropWhile_cons] at h
    by_cases hp : p a
    · rw [if_pos hp] at h
      exact head_dropWhile_false h
    · rw [if_neg hp] at h
      cases h
      exact Bool.eq_false_iff.mpr hp

theorem isPunct_not_ws {c : Char} (h : isPunct c = true) : jsWs c = false := by
  simp only [isPunct, Bool.or_eq_true, decide_eq_true_eq] at h
  rcases h with (rfl | rfl) | rfl <;> rfl

theorem sentGo_eq_nil_punct : ∀ (fuel : Nat) (s : List Char), s.length ≤ fuel →
    sentGo fuel s = [] → ∀ c ∈ s, isPunct c := by
  intro fuel
  induction fuel with
  | zero =>
    intro s hs _ c hc
    rw [List.length_eq_zero.mp (Nat.le_zero.mp hs)] at hc
    cases hc
  | succ fuel ih =>
    intro s hs hnil c hc
    cases s with
    | nil => cases hc
    | cons a rest =>
      rw [sentGo] at hnil
      by_cases hp : isPunct a
      · rw [if_pos hp] at hnil
        rcases List.mem_cons.mp hc with rfl | hc
        · exact hp
        · exact ih rest (by simpa using hs) hnil c hc
      · rw [if_neg hp] at hnil
        split at hnil
        · simp at hnil
        next x afterPre' heq1 =>
          split at hnil
          · simp at hnil
          next d afterP' heq2 =>
            by_cases hd : jsWs d
            · rw [if_pos hd] at hnil
              simp at hnil
            · rw [if_neg hd] at hnil
              have hall := ih rest (by simpa using hs) hnil
              have hdmem : d ∈ rest := by
                have h1 : d ∈ x :: afterPre' :=
                  (List.dropWhile_suffix isPunct).sublist.subset
                    (heq2 ▸ List.mem_cons_self d afterP')
                rw [← heq1] at h1
                exact (List.dropWhile_suffix _).sublist.subset h1
              have hdp := head_dropWhile_false heq2
              exact absurd (hall d hdmem) (by simp [hdp])

theorem sentGo_nil (fuel : Nat) : sentGo fuel [] = [] := by
  cases fuel <;> rfl

theorem sentGo_exists_nonws : ∀ (fuel : Nat) (s : List Char), s.length ≤ fuel →
    (∃ cl, s.getLast? = some cl ∧ jsWs cl = false) →
    sentGo fuel s = [] ∨ ∃ m ∈ sentGo fuel s, filterNW m ≠ [] := by
  intro fuel
  induction fuel with
  | zero =>
    intro s hs _
    rw [List.length_eq_zero.mp (Nat.le_zero.mp hs)]
    exact Or.inl rfl
  | succ fuel ih =>
    intro s hs hlast
    cases s with
    | nil => exact Or.inl rfl
    | cons a rest =>
      rw [sentGo]
      by_cases hp : isPunct a
      · rw [if_pos hp]
        cases rest with
        | nil => exact Or.inl (sentGo_nil fuel)
        | cons b t =>
          have hlast2 : ∃ cl, (b :: t).getLast? = some cl ∧ jsWs cl = false := by
            rcases hlast with ⟨cl, hcl, hclw⟩
            rw [List.getLast?_cons_cons] at hcl
            exact ⟨cl, hcl, hclw⟩
          exact ih (b :: t) (by simpa using hs) hlast2
      · rw [if_neg hp]
        rcases hlast with ⟨cl, hcl, hclw⟩
        have hclmem : cl ∈ a :: rest := List.mem_of_getLast?_eq_some hcl
        have hmemNW : filterNW (a :: rest) ≠ [] := by
          intro hf
          have h2 := filterNW_eq_nil_iff.mp hf cl hclmem
          rw [hclw] at h2
          cases h2
        split
        · exact Or.inr ⟨a :: rest, List.mem_cons_self _ _, hmemNW⟩
        next x afterPre' heq1 =>
          split
          · exact Or.inr ⟨a :: rest, List.mem_cons_self _ _, hmemNW⟩
          next d afterP' heq2 =>
            by_cases hd : jsWs d
            · rw [if_pos hd]
              have hx : isPunct x = true := by
                have h1 := head_dropWhile_false heq1
                simpa using h1
              refine Or.inr ⟨_, List.mem_cons_self _ _, ?_⟩
              have hxmem : x ∈ (a :: rest.takeWhile (fun y => !isPunct y)) ++
                  (x :: afterPre').takeWhile isPunct ++ (d :: afterP').takeWhile jsWs := by
                refine List.mem_append.mpr (Or.inl ?_)
                refine List.mem_append.mpr (Or.inr ?_)
                rw [List.takeWhile_cons_of_pos hx]
                exact List.mem_cons_self _ _
              intro hf
              have h2 := filterNW_eq_nil_iff.mp hf x hxmem
              rw [isPunct_not_ws hx] at h2
              cases h2
            · rw [if_neg hd]
              have hrest : rest ≠ [] := by
                intro hr
                rw [hr] at heq1
                cases heq1
              have hlast2 : ∃ cl2, rest.getLast? = some cl2 ∧ jsWs cl2 = false := by
                cases rest with
                | nil => exact absurd rfl hrest
                | cons b t =>
                  rw [List.getLast?_cons_cons] at hcl
                  exact ⟨cl, hcl, hclw⟩
              exact ih rest (by simpa using hs) hlast2

/-! ### Units: hard-splitting, sentence units, paragraph units -/

theorem hardSplitGo_length_le (S : Nat) : ∀ (fuel : Nat) (s : List Char),
    ∀ x ∈ hardSplitGo S fuel s, x.length ≤ S := by
  intro fuel
  induction fuel with
  | zero =>
    intro s x hx
    cases s <;> simp [hardSplitGo] at hx
  | succ fuel ih =>
    intro s x hx
    cases s with
    | nil => simp [hardSplitGo] at hx
    | cons c rest =>
      rw [hardSplitGo] at hx
      rcases List.mem_cons.mp hx with rfl | hx
      · exact List.length_take_le S (c :: rest)
      · exact ih _ x hx

theorem hardSplitGo_flatten {S : Nat} (hS : 0 < S) : ∀ (fuel : Nat) (s : List Char),
    s.length ≤ fuel → (hardSplitGo S fuel s).flatten = s := by
  intro fuel
  induction fuel with
  | zero =>
    intro s hs
    rw [List.length_eq_zero.mp (Nat.le_zero.mp hs)]
    rfl
  | succ fuel ih =>
    intro s hs
    cases s with
    | nil => rfl
    | cons c rest =>
      rw [hardSplitGo, List.flatten_cons, ih ((c :: rest).drop S)
        (by simp only [List.length_cons] at hs; simp only [List.length_drop, List.length_cons]
            omega)]
      exact List.take_append_drop S (c :: rest)

theorem hardSplitGo_ne_nil (S : Nat) {fuel : Nat} {s : List Char}
    (hs : s ≠ []) (hfuel : 1 ≤ fuel) : hardSplitGo S fuel s ≠ [] := by
  cases fuel with
  | zero => omega
  | succ fuel =>
    cases s with
    | nil => exact absurd rfl hs
    | cons c rest => simp [hardSplitGo]

theorem sentenceUnits_length_le (S : Nat) (s : List Char) :
    ∀ u ∈ sentenceUnits S s, u.length ≤ S := by
  intro u hu
  simp only [sentenceUnits] at hu
  split at hu
  · cases hu
  · split at hu
    · exact hardSplitGo_length_le S _ _ u hu
    next h2 =>
      rcases List.mem_singleton.mp hu with rfl
      omega

theorem flatten_map_filterNW (L : List (List Char)) :
    (L.map filterNW).flatten = filterNW L.flatten := by
  rw [filterNW, List.filter_flatten]
  rfl

theorem sentenceUnits_flatten_filterNW {S : Nat} (hS : 0 < S) (s : List Char) :
    ((sentenceUnits S s).map filterNW).flatten = filterNW s := by
  simp only [sentenceUnits]
  split
  next h1 =>
    rw [← filterNW_trimWs s, h1]
    rfl
  next h1 =>
    split
    · rw [flatten_map_filterNW, hardSplit, hardSplitGo_flatten hS _ _ le_rfl, filterNW_trimWs]
    · simp only [List.map_cons, List.map_nil, List.flatten_cons, List.flatten_nil,
        List.append_nil, filterNW_trimWs]

theorem sentenceUnits_ne_nil {S : Nat} (hS : 0 < S) (s : List Char)
    (hts : trimWs s ≠ []) : sentenceUnits S s ≠ [] := by
  simp only [sentenceUnits]
  split
  next h1 => exact absurd h1 hts
  next h1 =>
    split
    next h2 =>
      refine hardSplitGo_ne_nil S h1 ?_
      have h3 : 0 < (trimWs s).length := List.length_pos.mpr h1
      omega
    · simp

theorem flatten_map_flatten_eq (f : List Char → List (List Char)) :
    ∀ L : List (List Char),
      (((L.map f).flatten).map filterNW).flatten =
        (L.map (fun a => ((f a).map filterNW).flatten)).flatten
  | [] => rfl
  | a :: L => by
    simp only [List.map_cons, List.flatten_cons, List.map_append, List.flatten_append,
      flatten_map_flatten_eq f L]

theorem paraUnits_classify (S : Nat) (p : List Char) :
    ∀ u ∈ paraUnits S p, u.length ≤ S ∨ (u ≠ [] ∧ ∀ c ∈ u, isPunct c) := by
  intro u hu
  simp only [paraUnits] at hu
  split at hu
  · cases hu
  next h1 =>
    split at hu
    next h2 =>
      rcases List.mem_singleton.mp hu with rfl
      left
      omega
    next h2 =>
      split at hu
      next hss =>
        rcases List.mem_singleton.mp hu with rfl
        right
        refine ⟨h1, ?_⟩
        rw [sentMatches] at hss
        exact sentGo_eq_nil_punct _ _ le_rfl hss
      next m ms hss =>
        rcases List.mem_flatten.mp hu with ⟨l, hl, hul⟩
        rcases List.mem_map.mp hl with ⟨sm, hsm, rfl⟩
        left
        exact sentenceUnits_length_le S sm u hul

theorem paraUnits_flatten_filterNW {S : Nat} (hS : 0 < S) (p : List Char)
    (hcov : S ≤ 2 * (collapseWs p).length → sentMatches (collapseWs p) ≠ [] →
      (sentMatches (collapseWs p)).flatten = collapseWs p) :
    ((paraUnits S p).map filterNW).flatten = filterNW p := by
  simp only [paraUnits]
  split
  next h1 =>
    rw [← collapseWs_filterNW p, h1]
    rfl
  next h1 =>
    split
    next h2 =>
      simp only [List.map_cons, List.map_nil, List.flatten_cons, List.flatten_nil,
        List.append_nil]
      exact collapseWs_filterNW p
    next h2 =>
      split
      next hss =>
        simp only [List.map_cons, List.map_nil, List.flatten_cons, List.flatten_nil,
          List.append_nil]
        exact collapseWs_filterNW p
      next m ms hss =>
        have hjoin : (sentMatches (collapseWs p)).flatten = collapseWs p :=
          hcov (by omega) (by rw [hss]; simp)
        rw [flatten_map_flatten_eq (sentenceUnits S) (m :: ms),
          List.map_congr_left (fun sm _ => sentenceUnits_flatten_filterNW hS sm),
          flatten_map_filterNW, show m :: ms = sentMatches (collapseWs p) from hss.symm,
          hjoin, collapseWs_filterNW]

theorem paraUnits_ne_nil {S : Nat} (hS : 0 < S) (p : List Char)
    (htp : collapseWs p ≠ []) : paraUnits S p ≠ [] := by
  simp only [paraUnits]
  split
  next h1 => exact absurd h1 htp
  next h1 =>
    split
    · simp
    next h2 =>
      split
      · simp
      next m ms hss =>
        rcases collapseWs_getLast_nonws p htp with ⟨cl, hcl, hclw⟩
        have h3 := sentGo_exists_nonws (collapseWs p).length (collapseWs p) le_rfl
          ⟨cl, hcl, hclw⟩
        rw [← sentMatches] at h3
        rcases h3 with h3 | ⟨sm, hsm, hsmNW⟩
        · rw [h3] at hss
          cases hss
        · have hts : trimWs sm ≠ [] := by
            intro h0
            exact hsmNW (by rw [← filterNW_trimWs sm, h0]; rfl)
          intro h0
          rw [List.flatten_eq_nil_iff] at h0
          rw [hss] at hsm
          have h4 : sentenceUnits S sm ∈ (m :: ms).map (sentenceUnits S) :=
            List.mem_map_of_mem _ hsm
          exact sentenceUnits_ne_nil hS sm hts (h0 _ h4)

theorem splitIntoUnits_classify (S : Nat) (str : List Char) :
    ∀ u ∈ splitIntoUnits S str, u.length ≤ S ∨ (u ≠ [] ∧ ∀ c ∈ u, isPunct c) := by
  intro u hu
  rw [splitIntoUnits] at hu
  rcases List.mem_flatten.mp hu with ⟨l, hl, hul⟩
  rcases List.mem_map.mp hl with ⟨p, hp, rfl⟩
  exact paraUnits_classify S p u hul

theorem splitIntoUnits_flatten_filterNW {S : Nat} (hS : 0 < S) (str : List Char)
    (hcov : ∀ p ∈ splitParas (normalizeCRLF str),
      S ≤ 2 * (collapseWs p).length → sentMatches (collapseWs p) ≠ [] →
        (sentMatches (collapseWs p)).flatten = collapseWs p) :
    ((splitIntoUnits S str).map filterNW).flatten = filterNW str := by
  rw [splitIntoUnits, flatten_map_flatten_eq (paraUnits S),
    List.map_congr_left (fun p hp => paraUnits_flatten_filterNW hS p (hcov p hp)),
    splitParas_filterNW, normalizeCRLF_filterNW]

theorem splitIntoUnits_ne_nil {S : Nat} (hS : 0 < S) (str : List Char)
    (hnw : filterNW str ≠ []) : splitIntoUnits S str ≠ [] := by
  have h1 : ((splitParas (normalizeCRLF str)).map filterNW).flatten = filterNW str := by
    rw [splitParas_filterNW, normalizeCRLF_filterNW]
  have h2 : ∃ p ∈ splitParas (normalizeCRLF str), filterNW p ≠ [] := by
    by_contra h0
    push_neg at h0
    apply hnw
    rw [← h1, List.flatten_eq_nil_iff]
    intro l hl
    rcases List.mem_map.mp hl with ⟨p, hp, rfl⟩
    exact h0 p hp
  rcases h2 with ⟨p, hp, hpnw⟩
  intro h0
  rw [splitIntoUnits, List.flatten_eq_nil_iff] at h0
  have h3 : paraUnits S p ∈ (splitParas (normalizeCRLF str)).map (paraUnits S) :=
    List.mem_map_of_mem _ hp
  have h4 : collapseWs p ≠ [] := by
    intro hc
    exact hpnw ((collapseWs_eq_nil_iff p).mp hc)
  exact paraUnits_ne_nil hS p h4 (h0 _ h3)

/-! ### The overlap accumulation and the packing loop -/

theorem sumLen_cons (u : List Char) (l : List (List Char)) :
    sumLen (u :: l) = u.length + 1 + sumLen l := by
  simp only [sumLen, List.map_cons, List.sum_cons]

theorem sumLen_append (a b : List (List Char)) : sumLen (a ++ b) = sumLen a + sumLen b := by
  simp only [sumLen, List.map_append, List.sum_append]

theorem sumLen_reverse (l : List (List Char)) : sumLen l.reverse = sumLen l := by
  simp only [sumLen, List.map_reverse, List.sum_reverse]

theorem joinSp_length : ∀ l : List (List Char), l ≠ [] →
    (joinSp l).length + 1 = sumLen l
  | [], h => absurd rfl h
  | [u], _ => by simp [joinSp, sumLen]
  | u :: v :: us, _ => by
    have ih := joinSp_length (v :: us) (by simp)
    rw [joinSp_cons_cons, List.length_append, sumLen_cons]
    simp only [List.length_cons]
    omega

theorem overlapCalc_spec (O : Nat) :
    ∀ (rev : List (List Char)) (olen : Nat) (acc : List (List Char)),
      ∃ t, t <+: rev ∧ (overlapCalc O rev olen acc).1 = t.reverse ++ acc ∧
        (overlapCalc O rev olen acc).2 = olen + sumLen t
  | [], olen, acc => ⟨[], by simp, by simp [overlapCalc], by simp [overlapCalc, sumLen]⟩
  | u :: rev, olen, acc => by
    rw [overlapCalc]
    by_cases h : O < olen + u.length
    · rw [if_pos h]
      exact ⟨[], by simp, by simp, by simp [sumLen]⟩
    · rw [if_neg h]
      rcases overlapCalc_spec O rev (olen + u.length + 1) (u :: acc) with ⟨t, ht1, ht2, ht3⟩
      refine ⟨u :: t, List.cons_prefix_cons.mpr ⟨rfl, ht1⟩, ?_, ?_⟩
      · rw [ht2, List.reverse_cons, List.append_assoc]
        rfl
      · rw [ht3, sumLen_cons]
        omega

theorem overlapCalc_snd_le (O : Nat) :
    ∀ (rev : List (List Char)) (olen : Nat) (acc : List (List Char)),
      (overlapCalc O rev olen acc).2 ≤ max olen (O + 1)
  | [], olen, acc => by simp [overlapCalc]
  | u :: rev, olen, acc => by
    rw [overlapCalc]
    by_cases h : O < olen + u.length
    · rw [if_pos h]
      simp
    · rw [if_neg h]
      have h2 := overlapCalc_snd_le O rev (olen + u.length + 1) (u :: acc)
      have h3 : olen + u.length + 1 ≤ O + 1 := by omega
      rw [Nat.max_eq_right h3] at h2
      exact le_trans h2 (le_max_right _ _)

theorem overlapCalc_fst_nil_iff (O : Nat) (u : List Char) (rev : List (List Char)) :
    (overlapCalc O (u :: rev) 0 []).1 = [] ↔ O < u.length := by
  rw [overlapCalc]
  by_cases h : O < 0 + u.length
  · rw [if_pos h]
    simpa using h
  · rw [if_neg h]
    rcases overlapCalc_spec O rev (0 + u.length + 1) [u] with ⟨t, _, ht2, _⟩
    rw [ht2]
    constructor
    · intro h0
      exact absurd h0 (by simp)
    · intro h0
      exact absurd h0 (by simpa using h)

theorem ovlOf_suffix (O : Nat) (l : List (List Char)) : ovlOf O l <:+ l := by
  rw [ovlOf]
  rcases overlapCalc_spec O l.reverse 0 [] with ⟨t, ht1, ht2, _⟩
  rw [ht2, List.append_nil]
  have h2 := List.reverse_suffix.mpr ht1
  rwa [List.reverse_reverse] at h2

theorem ovlOf_sumLen_le (O : Nat) (l : List (List Char)) : sumLen (ovlOf O l) ≤ O + 1 := by
  rw [ovlOf]
  rcases overlapCalc_spec O l.reverse 0 [] with ⟨t, _, ht2, ht3⟩
  have h2 := overlapCalc_snd_le O l.reverse 0 []
  rw [ht3, Nat.max_eq_right (Nat.zero_le _)] at h2
  rw [ht2, List.append_nil, sumLen_reverse]
  omega

theorem ovlOf_nil_iff (O : Nat) {l : List (List Char)} {u : List Char}
    (h : l.getLast? = some u) : (ovlOf O l = [] ↔ O < u.length) := by
  rw [List.getLast?_eq_head?_reverse] at h
  rw [ovlOf]
  cases hrev : l.reverse with
  | nil =>
    rw [hrev] at h
    cases h
  | cons u₀ rev =>
    rw [hrev] at h
    simp only [List.head?_cons, Option.some.injEq] at h
    subst h
    exact overlapCalc_fst_nil_iff O u₀ rev

theorem packGo_sublist (S O : Nat) : ∀ (us cur : List (List Char)) (len : Nat),
    cur ++ us <+ (packGo S O us cur len).flatten
  | [], cur, len => by
    rw [packGo]
    by_cases h : cur = []
    · rw [if_pos h, h]
      simp
    · rw [if_neg h]
      simp
  | u :: us, cur, len => by
    rw [packGo]
    by_cases h : S < len + u.length + 1 ∧ cur ≠ []
    · rw [if_pos h, List.flatten_cons]
      have ih := packGo_sublist S O us ((overlapCalc O cur.reverse 0 []).1 ++ [u])
        ((overlapCalc O cur.reverse 0 []).2 + u.length + 1)
      refine List.Sublist.append (List.Sublist.refl cur) (List.Sublist.trans ?_ ih)
      rw [List.append_assoc]
      exact List.sublist_append_right _ _
    · rw [if_neg h]
      have ih := packGo_sublist S O us (cur ++ [u]) (len + u.length + 1)
      rw [List.append_assoc] at ih
      exact ih

theorem packGo_bound {S O : Nat} : ∀ (us cur : List (List Char)) (len : Nat),
    (∀ u ∈ us, u.length ≤ S) → len = sumLen cur → (cur = [] ∨ len ≤ S + O + 2) →
    ∀ l ∈ packGo S O us cur len, (joinSp l).length ≤ S + O + 1
  | [], cur, len => by
    intro _ hlen hcur l hl
    rw [packGo] at hl
    by_cases h : cur = []
    · rw [if_pos h] at hl
      cases hl
    · rw [if_neg h] at hl
      rcases List.mem_singleton.mp hl with rfl
      rcases hcur with hcur | hcur
      · exact absurd hcur h
      · have h2 := joinSp_length l h
        omega
  | u :: us, cur, len => by
    intro hus hlen hcur l hl
    rw [packGo] at hl
    by_cases h : S < len + u.length + 1 ∧ cur ≠ []
    · rw [if_pos h] at hl
      rcases List.mem_cons.mp hl with rfl | hl
      · rcases hcur with hcur | hcur
        · exact absurd hcur h.2
        · have h2 := joinSp_length l h.2
          omega
      · rcases overlapCalc_spec O cur.reverse 0 [] with ⟨t, _, ht2, ht3⟩
        refine packGo_bound us ((overlapCalc O cur.reverse 0 []).1 ++ [u]) _
          (fun v hv => hus v (List.mem_cons_of_mem u hv)) ?_ ?_ l hl
        · rw [sumLen_append, ht2, ht3, List.append_nil, sumLen_reverse, sumLen_cons]
          simp only [sumLen, List.map_nil, List.sum_nil]
          omega
        · right
          have h2 := ovlOf_sumLen_le O cur
          rw [ovlOf, ht2, List.append_nil, sumLen_reverse] at h2
          have h3 : u.length ≤ S := hus u (List.mem_cons_self u us)
          rw [ht3]
          omega
    · rw [if_neg h] at hl
      have hcur2 : len + u.length + 1 = sumLen (cur ++ [u]) := by
        rw [sumLen_append, sumLen_cons, hlen]
        simp only [sumLen, List.map_nil, List.sum_nil]
        omega
      refine packGo_bound us (cur ++ [u]) _
        (fun v hv => hus v (List.mem_cons_of_mem u hv)) hcur2 ?_ l hl
      right
      by_cases hc : cur = []
      · have h3 : u.length ≤ S := hus u (List.mem_cons_self u us)
        rw [hc] at hlen
        simp only [sumLen, List.map_nil, List.sum_nil] at hlen
        omega
      · have h4 : ¬ S < len + u.length + 1 := by
          intro h5
          exact h ⟨h5, hc⟩
        omega

theorem packGo_ne_nil (S O : Nat) : ∀ (us cur : List (List Char)) (len : Nat),
    us ≠ [] ∨ cur ≠ [] → packGo S O us cur len ≠ []
  | [], cur, len => by
    intro hor
    rcases hor with hor | hor
    · exact absurd rfl hor
    · rw [packGo, if_neg hor]
      simp
  | u :: us, cur, len => by
    intro _
    rw [packGo]
    by_cases h : S < len + u.length + 1 ∧ cur ≠ []
    · rw [if_pos h]
      simp
    · rw [if_neg h]
      exact packGo_ne_nil S O us (cur ++ [u]) (len + u.length + 1) (Or.inr (by simp))

theorem packGo_head (S O : Nat) : ∀ (us cur : List (List Char)) (len : Nat), cur ≠ [] →
    ∃ ext rest, packGo S O us cur len = (cur ++ ext) :: rest
  | [], cur, len => by
    intro hcur
    rw [packGo, if_neg hcur]
    exact ⟨[], [], by simp⟩
  | u :: us, cur, len => by
    intro hcur
    rw [packGo]
    by_cases h : S < len + u.length + 1 ∧ cur ≠ []
    · rw [if_pos h]
      exact ⟨[], packGo S O us ((overlapCalc O cur.reverse 0 []).1 ++ [u])
        ((overlapCalc O cur.reverse 0 []).2 + u.length + 1), by simp⟩
    · rw [if_neg h]
      rcases packGo_head S O us (cur ++ [u]) (len + u.length + 1) (by simp) with ⟨ext, rest, hh⟩
      exact ⟨[u] ++ ext, rest, by rw [hh, List.append_assoc]⟩

theorem packGo_chain (S O : Nat) : ∀ (us cur : List (List Char)) (len : Nat),
    List.Chain' (fun l₁ l₂ => ovlOf O l₁ <:+ l₁ ∧ ovlOf O l₁ <+: l₂ ∧
      sumLen (ovlOf O l₁) ≤ O + 1 ∧
      (∀ u, l₁.getLast? = some u → (ovlOf O l₁ = [] ↔ O < u.length)))
      (packGo S O us cur len)
  | [], cur, len => by
    rw [packGo]
    by_cases h : cur = []
    · rw [if_pos h]
      exact List.chain'_nil
    · rw [if_neg h]
      exact List.chain'_singleton cur
  | u :: us, cur, len => by
    rw [packGo]
    by_cases h : S < len + u.length + 1 ∧ cur ≠ []
    · rw [if_pos h]
      refine List.chain'_cons'.mpr ⟨?_, packGo_chain S O us _ _⟩
      intro b hb
      rcases packGo_head S O us ((overlapCalc O cur.reverse 0 []).1 ++ [u])
        ((overlapCalc O cur.reverse 0 []).2 + u.length + 1) (by simp) with ⟨ext, rest, hh⟩
      rw [hh] at hb
      simp only [List.head?_cons, Option.mem_def, Option.some.injEq] at hb
      subst hb
      refine ⟨ovlOf_suffix O cur, ?_, ovlOf_sumLen_le O cur,
        fun v hv => ovlOf_nil_iff O hv⟩
      rw [ovlOf, List.append_assoc]
      exact List.prefix_append _ _
    · rw [if_neg h]
      exact packGo_chain S O us (cur ++ [u]) (len + u.length + 1)

/-! ### Relating unit lists to chunk contents -/

theorem flatten_sublist_joinSp : ∀ l : List (List Char), l.flatten <+ joinSp l
  | [] => List.Sublist.refl []
  | [u] => by simp [joinSp]
  | u :: v :: us => by
    rw [joinSp_cons_cons, List.flatten_cons]
    exact List.Sublist.append (List.Sublist.refl u)
      ((flatten_sublist_joinSp (v :: us)).cons ' ')

theorem sublist_flatten_mono {α : Type} {l₁ l₂ : List (List α)} (h : l₁ <+ l₂) :
    l₁.flatten <+ l₂.flatten := by
  induction h with
  | slnil => exact List.Sublist.refl []
  | cons a h ih =>
    rw [List.flatten_cons]
    exact List.Sublist.trans ih (List.sublist_append_right a _)
  | cons₂ a h ih =>
    rw [List.flatten_cons, List.flatten_cons]
    exact List.Sublist.append (List.Sublist.refl a) ih

theorem flatten_map_joinSp_mono : ∀ L : List (List (List Char)),
    (L.map List.flatten).flatten <+ (L.map joinSp).flatten
  | [] => List.Sublist.refl []
  | l :: L => by
    simp only [List.map_cons, List.flatten_cons]
    exact List.Sublist.append (flatten_sublist_joinSp l) (flatten_map_joinSp_mono L)

theorem joinSp_append_of_ne_nil : ∀ (a : List (List Char)) {b : List (List Char)},
    a ≠ [] → b ≠ [] → joinSp (a ++ b) = joinSp a ++ ' ' :: joinSp b
  | [], _, ha, _ => absurd rfl ha
  | [u], b, _, hb => by
    cases b with
    | nil => exact absurd rfl hb
    | cons v bs =>
      rw [List.singleton_append, joinSp_cons_cons]
      rfl
  | u :: w :: as, b, _, hb => by
    have ih := joinSp_append_of_ne_nil (w :: as) (by simp) hb
    rw [List.cons_append, List.cons_append, joinSp_cons_cons, ← List.cons_append,
      ih, joinSp_cons_cons]
    simp [List.append_assoc]

theorem joinSp_prefix_mono {a b : List (List Char)} (h : a <+: b) :
    joinSp a <+: joinSp b := by
  rcases h with ⟨t, rfl⟩
  by_cases ha : a = []
  · subst ha
    exact List.nil_prefix
  · by_cases ht : t = []
    · subst ht
      rw [List.append_nil]
    · rw [joinSp_append_of_ne_nil a ha ht]
      exact ⟨_, rfl⟩

theorem joinSp_suffix_mono {a b : List (List Char)} (h : a <:+ b) :
    joinSp a <:+ joinSp b := by
  rcases h with ⟨t, rfl⟩
  by_cases ha : a = []
  · subst ha
    exact List.nil_suffix
  · by_cases ht : t = []
    · subst ht
      rw [List.nil_append]
    · rw [joinSp_append_of_ne_nil t ht ha]
      exact ⟨joinSp t ++ [' '], by simp⟩

theorem chunkText_contents (text src : List Char) (S O now : Nat) :
    (chunkText text src S O now).map ChunkData.content =
      (chunkUnitLists S O text).map joinSp := by
  rw [chunkText]
  split
  next htrim =>
    have hnw : filterNW text = [] := trimWs_eq_nil_iff.mp htrim
    have hpieces : ∀ p ∈ splitParas (normalizeCRLF text), filterNW p = [] := by
      intro p hp
      have h1 : ((splitParas (normalizeCRLF text)).map filterNW).flatten = [] := by
        rw [splitParas_filterNW, normalizeCRLF_filterNW, hnw]
      rw [List.flatten_eq_nil_iff] at h1
      exact h1 (filterNW p) (List.mem_map_of_mem filterNW hp)
    have hunits : splitIntoUnits S text = [] := by
      rw [splitIntoUnits, List.flatten_eq_nil_iff]
      intro l hl
      rcases List.mem_map.mp hl with ⟨p, hp, rfl⟩
      simp [paraUnits, (collapseWs_eq_nil_iff p).mpr (hpieces p hp)]
    rw [chunkUnitLists, hunits]
    rfl
  next htrim =>
    rw [List.map_map]
    have h1 : (ChunkData.content ∘ (fun pr : Nat × List (List Char) =>
        ChunkData.mk (mkId src pr.1 now) src (joinSp pr.2))) = joinSp ∘ Prod.snd := rfl
    rw [h1, ← List.map_map, List.enum_eq_enumFrom, List.enumFrom_map_snd]

/-! ### The chunking claims -/

/-- Claim C1 counterexample: with `targetSize = 10` and `overlap = 5` every
unit of this text is at most 10 characters (no oversized indivisible unit
exists at all), yet the overlap-seeded second chunk has 16 > 10 characters:
chunk contents are NOT bounded by `targetSize`. -/
theorem chunkText_chunk_exceeds_targetSize :
    (splitIntoUnits 10 ("aaaa. bbbbbbbbb.".toList)).all (fun u => u.length ≤ 10) = true ∧
    (chunkText ("aaaa. bbbbbbbbb.".toList) ['f'] 10 5 0).map
      (fun c => c.content.length) = [5, 16] :=
  ⟨by decide, by decide⟩

/-- Claim C1 (amended): every unit produced by `splitIntoUnits` has length
at most `targetSize` unless it is a regex-fallback paragraph consisting
solely of sentence terminators `.!?` (hard-splitting bounds every other
unit); and whenever every unit is at most `targetSize`, every chunk content
has length at most `targetSize + overlap + 1` — the overlap seeding can
push a chunk past `targetSize` by up to `overlap + 1` characters. -/
theorem chunkText_unit_and_content_bounds :
    ∀ (text src : List Char) (S O now : Nat), 0 < S → O < S →
      (∀ u ∈ splitIntoUnits S text, u.length ≤ S ∨ (u ≠ [] ∧ ∀ c ∈ u, isPunct c)) ∧
      ((∀ u ∈ splitIntoUnits S text, u.length ≤ S) →
        ∀ ch ∈ chunkText text src S O now, ch.content.length ≤ S + O + 1) := by
  intro text src S O now hS hO
  refine ⟨splitIntoUnits_classify S text, ?_⟩
  intro hall ch hch
  have h1 : ch.content ∈ (chunkText text src S O now).map ChunkData.content :=
    List.mem_map_of_mem _ hch
  rw [chunkText_contents] at h1
  rcases List.mem_map.mp h1 with ⟨l, hl, hcon⟩
  rw [← hcon]
  rw [chunkUnitLists] at hl
  exact packGo_bound (splitIntoUnits S text) [] 0 hall (by simp [sumLen]) (Or.inl rfl) l hl

theorem chunkText_unit_and_content_bounds_witness :
    ((0 : Nat) < 10 ∧ (5 : Nat) < 10) ∧
    ((∀ u ∈ splitIntoUnits 10 ("aaaa. bbbbbbbbb.".toList), u.length ≤ 10 ∨
        (u ≠ [] ∧ ∀ c ∈ u, isPunct c)) ∧
      ((∀ u ∈ splitIntoUnits 10 ("aaaa. bbbbbbbbb.".toList), u.length ≤ 10) →
        ∀ ch ∈ chunkText ("aaaa. bbbbbbbbb.".toList) ['f'] 10 5 0,
          ch.content.length ≤ 10 + 5 + 1)) :=
  ⟨⟨by decide, by decide⟩,
    chunkText_unit_and_content_bounds ("aaaa. bbbbbbbbb.".toList) ['f'] 10 5 0
      (by decide) (by decide)⟩

/-- Claim C2 counterexample: with `targetSize = 2`, `overlap = 0`, the text
"a.b" is sentence-split; the regex only matches "b" and the characters `a`
and `.` are silently dropped, so the concatenated chunk contents do not
contain every non-whitespace input character. -/
theorem chunkText_drops_characters :
    (chunkText ("a.b".toList) ['f'] 2 0 0).map ChunkData.content = ["b".toList] ∧
    ¬ (filterNW ("a.b".toList) <+
        ((chunkText ("a.b".toList) ['f'] 2 0 0).map ChunkData.content).flatten) :=
  ⟨by decide, by decide⟩

/-- Claim C2 (amended): provided every sentence-split paragraph is fully
covered by its sentence-regex matches (their concatenation re-yields the
collapsed paragraph; without this the regex drops characters, e.g. around a
terminator not followed by whitespace), concatenating all chunk contents
yields text containing every non-whitespace character of the input in the
input's original order. -/
theorem chunkText_preserves_chars :
    ∀ (text src : List Char) (S O now : Nat), 0 < S → O < S →
      (∀ p ∈ splitParas (normalizeCRLF text),
        S ≤ 2 * (collapseWs p).length → sentMatches (collapseWs p) ≠ [] →
          (sentMatches (collapseWs p)).flatten = collapseWs p) →
      filterNW text <+ ((chunkText text src S O now).map ChunkData.content).flatten := by
  intro text src S O now hS hO hcov
  rw [chunkText_contents]
  have h1 : filterNW text = filterNW (splitIntoUnits S text).flatten := by
    rw [← splitIntoUnits_flatten_filterNW hS text hcov, flatten_map_filterNW]
  have h3 := packGo_sublist S O (splitIntoUnits S text) [] 0
  rw [List.nil_append] at h3
  have h4 := sublist_flatten_mono h3
  rw [List.flatten_flatten] at h4
  have h2 : (splitIntoUnits S text).flatten <+
      ((chunkUnitLists S O text).map joinSp).flatten := by
    rw [chunkUnitLists]
    exact List.Sublist.trans h4 (flatten_map_joinSp_mono _)
  rw [h1, filterNW]
  exact List.Sublist.trans (List.filter_sublist _) h2

theorem chunkText_preserves_chars_witness :
    ((0 : Nat) < 800 ∧ (100 : Nat) < 800 ∧
      (∀ p ∈ splitParas (normalizeCRLF
          ("Paragraph one is short.\n\nParagraph two is also short.".toList)),
        800 ≤ 2 * (collapseWs p).length → sentMatches (collapseWs p) ≠ [] →
          (sentMatches (collapseWs p)).flatten = collapseWs p)) ∧
    filterNW ("Paragraph one is short.\n\nParagraph two is also short.".toList) <+
      ((chunkText ("Paragraph one is short.\n\nParagraph two is also short.".toList)
        ("doc.txt".toList) 800 100 0).map ChunkData.content).flatten :=
  ⟨⟨by decide, by decide, by decide⟩,
    chunkText_preserves_chars
      ("Paragraph one is short.\n\nParagraph two is also short.".toList)
      ("doc.txt".toList) 800 100 0 (by decide) (by decide) (by decide)⟩

/-- Claim C7 counterexample: with `overlap = 2 > 0` this text produces two
chunks sharing NO non-empty trailing/leading text at all: the earlier
chunk's final unit alone exceeds the overlap budget, so the overlap prefix
is empty. -/
theorem chunkText_adjacent_no_overlap :
    (chunkText ("aaaa. bbbbbb.".toList) ['f'] 10 2 0).map ChunkData.content =
      ["aaaa.".toList, "bbbbbb.".toList] ∧
    ¬ ∃ s : List Char, s ≠ [] ∧ s <:+ ("aaaa.".toList) ∧ s <+: ("bbbbbb.".toList) := by
  refine ⟨by decide, ?_⟩
  rintro ⟨s, hne, hsuf, hpre⟩
  have hmem := (List.mem_tails s ("aaaa.".toList)).mpr hsuf
  fin_cases hmem <;> revert hne hpre <;> decide

/-- Claim C7 (amended): between any two adjacent chunks, the single-space
join of the earlier chunk's overlap units is a suffix of the earlier
chunk's content and a prefix of the later chunk's content, of length at
most `overlap`; it is empty exactly when the earlier chunk's final unit
alone is longer than `overlap` (zero eligible trailing units), hence
non-empty whenever that final unit fits within `overlap`. -/
theorem chunkText_adjacent_overlap :
    ∀ (text src : List Char) (S O now : Nat), 0 < S → O < S →
      (chunkText text src S O now).map ChunkData.content =
        (chunkUnitLists S O text).map joinSp ∧
      List.Chain' (fun l₁ l₂ =>
        joinSp (ovlOf O l₁) <:+ joinSp l₁ ∧
        joinSp (ovlOf O l₁) <+: joinSp l₂ ∧
        (joinSp (ovlOf O l₁)).length ≤ O ∧
        (∀ u, l₁.getLast? = some u → (ovlOf O l₁ = [] ↔ O < u.length)))
        (chunkUnitLists S O text) := by
  intro text src S O now hS hO
  refine ⟨chunkText_contents text src S O now, ?_⟩
  rw [chunkUnitLists]
  refine List.Chain'.imp ?_ (packGo_chain S O (splitIntoUnits S text) [] 0)
  intro l₁ l₂ h
  rcases h with ⟨h1, h2, h3, h4⟩
  refine ⟨joinSp_suffix_mono h1, joinSp_prefix_mono h2, ?_, h4⟩
  by_cases hovl : ovlOf O l₁ = []
  · rw [hovl]
    exact Nat.zero_le O
  · have h5 := joinSp_length (ovlOf O l₁) hovl
    omega

theorem chunkText_adjacent_overlap_witness :
    ((0 : Nat) < 10 ∧ (5 : Nat) < 10) ∧
    ((chunkText ("aaaa. bbbbbbbbb.".toList) ['f'] 10 5 0).map ChunkData.content =
        (chunkUnitLists 10 5 ("aaaa. bbbbbbbbb.".toList)).map joinSp ∧
      List.Chain' (fun l₁ l₂ =>
        joinSp (ovlOf 5 l₁) <:+ joinSp l₁ ∧
        joinSp (ovlOf 5 l₁) <+: joinSp l₂ ∧
        (joinSp (ovlOf 5 l₁)).length ≤ 5 ∧
        (∀ u, l₁.getLast? = some u → (ovlOf 5 l₁ = [] ↔ 5 < u.length)))
        (chunkUnitLists 10 5 ("aaaa. bbbbbbbbb.".toList))) :=
  ⟨⟨by decide, by decide⟩,
    chunkText_adjacent_overlap ("aaaa. bbbbbbbbb.".toList) ['f'] 10 5 0
      (by decide) (by decide)⟩

/-- Claim C8 counterexample: the one-character string " " is a non-empty
string, yet `chunkText` returns the empty sequence: whitespace-only input
yields no chunks. -/
theorem chunkText_blank_empty :
    (" ".toList ≠ ([] : List Char)) ∧ chunkText (" ".toList) ['f'] 800 100 0 = [] :=
  ⟨by decide, by decide⟩

/-- Claim C8 (amended): `chunkText` returns a non-empty sequence for every
text containing at least one non-whitespace character (non-blank rather
than merely non-empty: empty and whitespace-only texts yield the empty
sequence). -/
theorem chunkText_nonempty_of_nonblank :
    ∀ (text src : List Char) (S O now : Nat), 0 < S →
      (∃ c ∈ text, ¬ jsWs c) → chunkText text src S O now ≠ [] := by
  intro text src S O now hS hc
  have hnw : filterNW text ≠ [] := by
    intro h0
    rcases hc with ⟨c, hc1, hc2⟩
    exact hc2 (filterNW_eq_nil_iff.mp h0 c hc1)
  have htrim : trimWs text ≠ [] := by
    intro h0
    exact hnw (trimWs_eq_nil_iff.mp h0)
  rw [chunkText, if_neg htrim]
  intro h0
  rw [List.map_eq_nil_iff, List.enum_eq_enumFrom, List.enumFrom_eq_nil, chunkUnitLists] at h0
  exact packGo_ne_nil S O (splitIntoUnits S text) [] 0
    (Or.inl (splitIntoUnits_ne_nil hS text hnw)) h0

theorem chunkText_nonempty_of_nonblank_witness :
    ((0 : Nat) < 800 ∧ (∃ c ∈ ("a".toList), ¬ jsWs c)) ∧
    chunkText ("a".toList) ['f'] 800 100 0 ≠ [] :=
  ⟨⟨by decide, by decide⟩,
    chunkText_nonempty_of_nonblank ("a".toList) ['f'] 800 100 0 (by decide) (by decide)⟩

end VectorUtils
